import Mathlib

/-!
Verification development for a HackerNews CLI written in Rust (src/main.rs).
Strings of the source are modelled as lists of characters; the unsigned
64-bit machine integers of the source are modelled as Nat together with an
explicit wrapping operation modulo 2 ^ 64 where overflow can occur.
-/

/-- Character list of a Lean string literal; used to transcribe the string
literals of the source. -/
def chars (s : String) : List Char := s.data

/-- Whitespace test used by the model of split_whitespace. The source uses
the Unicode whitespace class; the titles and comment bodies involved in the
claims only use these ASCII whitespace characters. -/
def isWsChar (c : Char) : Bool :=
  decide (c = ' ' ∨ c = '\t' ∨ c = '\n' ∨ c = '\r')

/-- ASCII decimal digit test, as in Rust char::is_ascii_digit used by
usize parsing. -/
def isDigitCh (c : Char) : Bool :=
  decide (48 ≤ c.toNat ∧ c.toNat ≤ 57)

/-- Numeric value of a digit character. -/
def digitVal (c : Char) : Nat := c.toNat - 48

/-- Digit character of a value below ten. -/
def digitToChar (d : Nat) : Char := Char.ofNat (48 + d)

/-- Rust usize parsing accepts one optional leading plus sign. -/
def stripPlus (s : List Char) : List Char :=
  match s with
  | [] => []
  | c :: rest => if c = '+' then rest else c :: rest

/-- Numeric value of a digit string, most significant digit first. -/
def parseVal (t : List Char) : Nat :=
  t.foldl (fun acc c => acc * 10 + digitVal c) 0

/-- Model of str::parse::<usize>() (also u64): optional plus sign, then a
nonempty run of decimal digits whose value fits in 64 bits; anything else
is a parse error, modelled as none. -/
def parseUsize (s : List Char) : Option Nat :=
  let t := stripPlus s
  if t = [] then none
  else if t.all isDigitCh then
    if parseVal t < 2 ^ 64 then some (parseVal t) else none
  else none

/-- Fuel-driven accumulator loop producing the decimal digits of n in front
of acc; fuel at least n suffices. -/
def natToCharsAux : Nat → Nat → List Char → List Char
  | 0, _, acc => acc
  | fuel + 1, n, acc =>
      if n = 0 then acc
      else natToCharsAux fuel (n / 10) (digitToChar (n % 10) :: acc)

/-- Model of the Display formatting of usize used by format! in the source:
the usual decimal representation. -/
def natToChars (n : Nat) : List Char :=
  if n = 0 then ['0'] else natToCharsAux n n []

/-- Model of str::split with a single-character pattern, as used by
Story::from_cache_line; like the Rust iterator it always yields at least
one (possibly empty) piece. -/
def splitOnChar (sep : Char) : List Char → List (List Char)
  | [] => [[]]
  | c :: rest =>
      match splitOnChar sep rest with
      | [] => [[]]
      | f :: r => if c = sep then [] :: f :: r else (c :: f) :: r

/-- The title escaping of Story::to_cache_line: the delimiter bar is
replaced by the divides sign U+2223. -/
def escTitle (t : List Char) : List Char :=
  t.map fun c => if c = '|' then '∣' else c

/-- The reverse substitution applied by Story::from_cache_line. -/
def unescTitle (t : List Char) : List Char :=
  t.map fun c => if c = '∣' then '|' else c

/-- The Story struct of the source. rank, points and comments are usize in
the source and are modelled as Nat; text fields are lists of characters. -/
structure Story where
  rank : Nat
  id : List Char
  title : List Char
  url : Option (List Char)
  points : Option Nat
  author : Option (List Char)
  comments : Option Nat
  age : Option (List Char)
deriving DecidableEq

/-- Story::to_cache_line of the source: the seven persisted fields joined
by the bar delimiter, with the title escaped; url and author encode none
as the empty field, points and comments encode none as the empty field;
age is not persisted at all. -/
def Story.to_cache_line (s : Story) : List Char :=
  natToChars s.rank ++ '|' ::
    (s.id ++ '|' ::
      (escTitle s.title ++ '|' ::
        (s.url.getD [] ++ '|' ::
          ((s.points.map natToChars).getD [] ++ '|' ::
            (s.author.getD [] ++ '|' ::
              (s.comments.map natToChars).getD [])))))

/-- The body of Story::from_cache_line after the split: exactly seven
fields are required, the first field must parse as usize (the question
mark operator on parts[0].parse().ok()), empty url and author fields
decode as none, points and comments tolerate parse failure as none, and
age is always none on a loaded Story. -/
def decodeParts : List (List Char) → Option Story
  | [p0, p1, p2, p3, p4, p5, p6] =>
      match parseUsize p0 with
      | some rank =>
          some ⟨rank, p1, unescTitle p2,
                if p3 = [] then none else some p3,
                parseUsize p4,
                if p5 = [] then none else some p5,
                parseUsize p6, none⟩
      | none => none
  | _ => none

/-- Story::from_cache_line of the source. -/
def Story.from_cache_line (line : List Char) : Option Story :=
  decodeParts (splitOnChar '|' line)

deriving instance DecidableEq for Except

/-- The wrapping subtraction of two u64 values, both below 2 ^ 64; this is
what the release-mode Rust subtraction current_time - timestamp computes. -/
def wsub64 (a b : Nat) : Nat := (a + 2 ^ 64 - b) % 2 ^ 64

/-- CACHE_TTL_SECONDS of the source. -/
def CACHE_TTL_SECONDS : Nat := 300

/-- The two failure messages of load_cached_stories: Cache expired, and No
stories in cache. -/
inductive CacheError
  | expired
  | noStories
deriving DecidableEq

/-- The TTL test of load_cached_stories on the first cache line: if the
line parses as u64, the wrapped difference from the current time must not
exceed the TTL; a malformed timestamp skips the check. -/
def cacheExpired (tsLine : List Char) (now : Nat) : Bool :=
  match parseUsize tsLine with
  | some t => decide (CACHE_TTL_SECONDS < wsub64 now t)
  | none => false

/-- load_cached_stories of the source, on the file content given as its
list of lines and the current epoch time: the first line is consumed as
the timestamp and checked against the TTL, the remaining lines are decoded
independently with undecodable lines dropped, and an empty decoded set is
the No-stories error. -/
def loadCachedStories (content : List (List Char)) (now : Nat) :
    Except CacheError (List Story) :=
  match content with
  | [] => .error .noStories
  | tsLine :: rest =>
      if cacheExpired tsLine now then .error .expired
      else
        let stories := rest.filterMap Story.from_cache_line
        if stories = [] then .error .noStories else .ok stories

/-- save_stories of the source, at the granularity of lines: the current
timestamp line followed by one encoded line per story. Titles containing a
newline character would break the line abstraction; no claim involves
them. -/
def saveLines (timestamp : Nat) (stories : List Story) : List (List Char) :=
  natToChars timestamp :: stories.map Story.to_cache_line

/-- Accumulator loop of the split_whitespace model: acc holds the pending
word reversed. -/
def splitWSAux : List Char → List Char → List (List Char)
  | [], acc => if acc = [] then [] else [acc.reverse]
  | c :: rest, acc =>
      if isWsChar c then
        if acc = [] then splitWSAux rest []
        else acc.reverse :: splitWSAux rest []
      else splitWSAux rest (c :: acc)

/-- Model of str::split_whitespace: maximal nonempty runs of
non-whitespace characters, in order. -/
def splitWS (l : List Char) : List (List Char) := splitWSAux l []

/-- One iteration of the word loop of wrap_text: push the current line
when the word (plus a separating space) would overflow the width, then
append the word, preceded by a space when the line is nonempty. -/
def wrapStep (width : Nat) (acc : List (List Char) × List Char)
    (word : List Char) : List (List Char) × List Char :=
  let pushed :=
    if width < acc.2.length + word.length + 1 then
      if acc.2 = [] then acc else (acc.1 ++ [acc.2], ([] : List Char))
    else acc
  if pushed.2 = [] then (pushed.1, word)
  else (pushed.1, pushed.2 ++ ' ' :: word)

/-- wrap_text of the source: iterate the word loop over the whitespace
split of the text, then push the final nonempty line. -/
def wrapText (text : List Char) (width : Nat) : List (List Char) :=
  let r := (splitWS text).foldl (wrapStep width) ([], [])
  if r.2 = [] then r.1 else r.1 ++ [r.2]

/-- The words of a list of lines, in order; used to state that wrapping
never splits or drops a word. -/
def wordsOfLines (ls : List (List Char)) : List (List Char) :=
  ls.foldr (fun l acc => splitWS l ++ acc) []

/-- ITEMS_PER_PAGE of the source. -/
def ITEMS_PER_PAGE : Nat := 30

/-- The u64 arithmetic of the rank fallback (page - 1) * ITEMS_PER_PAGE +
idx + 1 of fetch_stories, with wrapping subtraction and a final wrap of
the whole expression. -/
def synthRank (page idx : Nat) : Nat :=
  (wsub64 page 1 * ITEMS_PER_PAGE + idx + 1) % 2 ^ 64

/-- trim_end_matches applied to the rank label: all trailing dots are
removed. -/
def dropTrailingDots (l : List Char) : List Char :=
  (l.reverse.dropWhile (fun c => decide (c = '.'))).reverse

/-- BASE_URL of the source. -/
def BASE_URL : List Char := chars "https://news.ycombinator.com"

/-- Substring containment test, as str::contains with a string pattern. -/
def containsSub (pat : List Char) : List Char → Bool
  | [] => pat.isEmpty
  | c :: rest => pat.isPrefixOf (c :: rest) || containsSub pat rest

/-- str::replace of the non-breaking-space entity by the empty string:
scan left to right removing non-overlapping occurrences. -/
def removeNbsp : List Char → List Char
  | '&' :: 'n' :: 'b' :: 's' :: 'p' :: ';' :: rest => removeNbsp rest
  | c :: rest => c :: removeNbsp rest
  | [] => []

/-- The link resolution of fetch_stories: absolute links kept, others
prefixed with BASE_URL after stripping leading slashes. -/
def resolveUrl (href : List Char) : List Char :=
  if (chars "http").isPrefixOf href then href
  else BASE_URL ++ '/' :: href.dropWhile (fun c => decide (c = '/'))

/-- The points parsing of fetch_stories: first whitespace token of the
score text, parsed as usize. -/
def parsePoints (scoreText : List Char) : Option Nat :=
  (splitWS scoreText).head?.bind parseUsize

/-- The comment-count parsing of fetch_stories: first whitespace token of
the link text with the non-breaking-space entity removed, parsed. -/
def parseCommentsToken (t : List Char) : Option Nat :=
  (splitWS t).head?.bind fun s => parseUsize (removeNbsp s)

/-- The anchor scan of fetch_stories: the first link text containing
comment or discuss wins, and its parse result (possibly none) is taken. -/
def findCommentsCount : List (List Char) → Option Nat
  | [] => none
  | t :: rest =>
      if containsSub (chars "comment") t || containsSub (chars "discuss") t then
        parseCommentsToken t
      else findCommentsCount rest

/-- One story row of a listing document: the id attribute, the rank label
text when a rank node is present, and the title link (inner text and
optional href) when a title node is present. -/
structure StoryRow where
  idAttr : Option (List Char)
  rankLabel : Option (List Char)
  titleLink : Option (List Char × Option (List Char))
deriving DecidableEq

/-- One subtext row of a listing document: score text, user text, age
text, and the texts of all its anchor nodes in order. -/
structure SubtextRow where
  scoreText : Option (List Char)
  userText : Option (List Char)
  ageText : Option (List Char)
  linkTexts : List (List Char)
deriving DecidableEq

/-- The body of the fetch_stories row loop for one story row at index idx,
paired with the subtext row of the same index when one exists: skip the
row when the title is empty, otherwise build the Story. -/
def extractRow (page idx : Nat) (row : StoryRow)
    (subtext : Option SubtextRow) : Option Story :=
  let id := row.idAttr.getD (chars "unknown")
  let rank := (row.rankLabel.bind fun r =>
    parseUsize (dropTrailingDots r)).getD (synthRank page idx)
  let title := (row.titleLink.map Prod.fst).getD []
  if title = [] then none
  else
    some ⟨rank, id, title,
          (row.titleLink.bind Prod.snd).map resolveUrl,
          subtext.bind fun st => st.scoreText.bind parsePoints,
          subtext.bind fun st => st.userText,
          subtext.bind fun st => findCommentsCount st.linkTexts,
          subtext.bind fun st => st.ageText⟩

/-- The enumerate loop of fetch_stories over the story rows, pairing each
index with the subtext row of that index. -/
def extractStoriesAux (page : Nat) (subtexts : List SubtextRow) :
    Nat → List StoryRow → List Story
  | _, [] => []
  | idx, row :: rest =>
      match extractRow page idx row (subtexts.get? idx) with
      | some s => s :: extractStoriesAux page subtexts (idx + 1) rest
      | none => extractStoriesAux page subtexts (idx + 1) rest

/-- The single failure of the extraction part of fetch_stories: no stories
retained. -/
inductive FetchError
  | noStoriesFound
deriving DecidableEq

/-- The extraction part of fetch_stories, from the parsed story rows and
subtext rows of the document: bail when zero stories are retained. -/
def fetchStoriesExtract (storyRows : List StoryRow)
    (subtexts : List SubtextRow) (page : Nat) :
    Except FetchError (List Story) :=
  let stories := extractStoriesAux page subtexts 0 storyRows
  if stories = [] then .error .noStoriesFound else .ok stories

/-- The comment display loop of fetch_item: materialize rows until the
index reaches 10, at which point the more-comments summary
total - 10 is emitted instead and the loop breaks. -/
def displayComments {α : Type} (total : Nat) : Nat → List α → List α × Option Nat
  | _, [] => ([], none)
  | idx, c :: rest =>
      if 10 ≤ idx then ([], some (total - 10))
      else
        let r := displayComments total (idx + 1) rest
        (c :: r.1, r.2)

/-- The comment section of fetch_item: count the comment rows first; zero
rows is the distinct no-comments state; otherwise run the display loop. -/
def fetchItemComments {α : Type} (rows : List α) : List α × Option Nat :=
  if rows.length = 0 then ([], none)
  else displayComments rows.length 0 rows

/-- The Result collect of fetch_multiple_pages: first error wins,
otherwise all payloads in order. -/
def collectResults {ε α : Type} : List (Except ε α) → Except ε (List α)
  | [] => .ok []
  | .error e :: _ => .error e
  | .ok a :: rest =>
      match collectResults rest with
      | .error e => .error e
      | .ok l => .ok (a :: l)

/-- fetch_multiple_pages of the source over an abstract per-page fetch:
join_all returns the per-page results in request order, and collect turns
them into one Result. -/
def fetchMultiplePages {ε : Type} (fetch : Nat → Except ε (List Story))
    (pages : List Nat) : Except ε (List (List Story)) :=
  collectResults (pages.map fetch)

/-- Boolean success test on a Result. -/
def isOkE {ε α : Type} : Except ε α → Bool
  | .ok _ => true
  | .error _ => false

/-- The field contains no literal delimiter. -/
def pipeFree (l : List Char) : Bool := l.all fun c => decide (¬ c = '|')

/-- An optional text field round-trips when it is absent, or present,
delimiter-free and nonempty (the empty field is how absence is encoded). -/
def optFieldOk : Option (List Char) → Bool
  | none => true
  | some u => pipeFree u && decide (¬ u = [])

/-- The title contains no divides sign, so unescaping is exact. -/
def placeholderFree (t : List Char) : Bool := t.all fun c => decide (¬ c = '∣')

/-- A Story carrying a fetch-time age and a title containing the literal
delimiter; the age field is what breaks the round trip. -/
def ageStory : Story :=
  ⟨3, chars "9001", chars "Rust | Lean", some (chars "https://example.com/a"),
   some 42, some (chars "alice"), some 7, some (chars "2 hours ago")⟩

/-- A benign Story whose title contains the delimiter. -/
def pipeTitleStory : Story :=
  ⟨1, chars "42", chars "a|b", some (chars "http://x"), some 100,
   some (chars "me"), some 5, none⟩

/-- A Story whose url contains the literal delimiter. -/
def pipeUrlStory : Story :=
  ⟨1, chars "40", chars "T", some (chars "http://a|b"), none, none, none, none⟩

/-- A story row with no rank label and the title T. -/
def sampleRow : StoryRow := ⟨some (chars "111"), none, some (chars "T", none)⟩

/-- The Story extracted from sampleRow on page 2 at index 4. -/
def rankStory : Story := ⟨35, chars "111", chars "T", none, none, none, none, none⟩

/-- A story row whose title node is absent; its title reads as empty and
the row is skipped. -/
def emptyTitleRow : StoryRow := ⟨some (chars "1"), none, none⟩

/-- The Story extracted from sampleRow on page 1 at index 1. -/
def titledStory : Story := ⟨2, chars "111", chars "T", none, none, none, none, none⟩

/-- A per-page fetch in which page 2 fails. -/
def failingFetch (p : Nat) : Except (List Char) (List Story) :=
  if p = 2 then .error (chars "boom") else .ok []

/-! ### Decimal printing and parsing round trip -/

lemma digitToChar_toNat {d : Nat} (h : d < 10) :
    (digitToChar d).toNat = 48 + d := by
  interval_cases d <;> decide

lemma isDigitCh_digitToChar {d : Nat} (h : d < 10) :
    isDigitCh (digitToChar d) = true := by
  interval_cases d <;> decide

lemma digitVal_digitToChar {d : Nat} (h : d < 10) :
    digitVal (digitToChar d) = d := by
  interval_cases d <;> decide

lemma digit_ne_plus {c : Char} (h : isDigitCh c = true) : ¬ c = '+' := by
  intro he
  rw [he] at h
  exact absurd h (by decide)

lemma digit_ne_pipe {c : Char} (h : isDigitCh c = true) : ¬ c = '|' := by
  intro he
  rw [he] at h
  exact absurd h (by decide)

lemma natToCharsAux_eq :
    ∀ (fuel n : Nat) (acc : List Char), n ≤ fuel →
      natToCharsAux fuel n acc = ((Nat.digits 10 n).map digitToChar).reverse ++ acc := by
  intro fuel
  induction fuel with
  | zero =>
      intro n acc h
      have hn : n = 0 := Nat.le_zero.mp h
      subst hn
      simp [natToCharsAux]
  | succ f ih =>
      intro n acc h
      by_cases hn : n = 0
      · subst hn
        simp [natToCharsAux]
      · have hdiv : n / 10 ≤ f := by
          have : n / 10 < n := Nat.div_lt_self (Nat.pos_of_ne_zero hn) (by norm_num)
          omega
        rw [natToCharsAux, if_neg hn, ih _ _ hdiv,
            Nat.digits_def' (by norm_num : (1 : Nat) < 10) (Nat.pos_of_ne_zero hn)]
        simp

lemma natToChars_eq {n : Nat} (hn : n ≠ 0) :
    natToChars n = ((Nat.digits 10 n).map digitToChar).reverse := by
  unfold natToChars
  rw [if_neg hn, natToCharsAux_eq n n [] le_rfl]
  simp

lemma natToChars_all_digit (n : Nat) :
    ∀ c ∈ natToChars n, isDigitCh c = true := by
  by_cases hn : n = 0
  · subst hn
    intro c hc
    simp [natToChars] at hc
    subst hc
    decide
  · rw [natToChars_eq hn]
    intro c hc
    rw [List.mem_reverse, List.mem_map] at hc
    obtain ⟨d, hd, rfl⟩ := hc
    exact isDigitCh_digitToChar (Nat.digits_lt_base (by norm_num) hd)

lemma natToChars_ne_nil (n : Nat) : natToChars n ≠ [] := by
  by_cases hn : n = 0
  · subst hn
    simp [natToChars]
  · rw [natToChars_eq hn]
    simp [Nat.digits_ne_nil_iff_ne_zero, hn]

lemma natToChars_pipe_free (n : Nat) : '|' ∉ natToChars n := by
  intro h
  exact absurd (natToChars_all_digit n _ h) (by decide)

lemma stripPlus_natToChars (n : Nat) : stripPlus (natToChars n) = natToChars n := by
  rcases h : natToChars n with _ | ⟨c, rest⟩
  · rfl
  · have hd : isDigitCh c = true := by
      apply natToChars_all_digit n
      rw [h]
      exact List.mem_cons_self _ _
    simp [stripPlus, digit_ne_plus hd]

lemma parseVal_eq_ofDigits (l : List Nat) (hl : ∀ d ∈ l, d < 10) :
    parseVal ((l.map digitToChar).reverse) = Nat.ofDigits 10 l := by
  unfold parseVal
  rw [List.foldl_reverse, List.foldr_map]
  induction l with
  | nil => simp [Nat.ofDigits]
  | cons d rest ih =>
      have hd : d < 10 := hl d (List.mem_cons_self _ _)
      have hrest : ∀ x ∈ rest, x < 10 := fun x hx => hl x (List.mem_cons_of_mem _ hx)
      rw [List.foldr_cons, ih hrest, Nat.ofDigits_cons,
          digitVal_digitToChar hd]
      ring

lemma parseUsize_natToChars {n : Nat} (h : n < 2 ^ 64) :
    parseUsize (natToChars n) = some n := by
  have hval : parseVal (natToChars n) = n := by
    by_cases hn : n = 0
    · subst hn
      decide
    · rw [natToChars_eq hn,
          parseVal_eq_ofDigits _ (fun d hd => Nat.digits_lt_base (by norm_num) hd),
          Nat.ofDigits_digits]
  unfold parseUsize
  simp only [stripPlus_natToChars]
  rw [if_neg (natToChars_ne_nil n),
      if_pos (List.all_eq_true.mpr (fun c hc => natToChars_all_digit n c hc)),
      hval, if_pos h]

lemma parseUsize_nil : parseUsize [] = none := by decide

/-! ### Splitting on the delimiter -/

lemma splitOnChar_ne_nil (sep : Char) (l : List Char) : splitOnChar sep l ≠ [] := by
  induction l with
  | nil => simp [splitOnChar]
  | cons c rest ih =>
      show (match splitOnChar sep rest with
            | [] => [[]]
            | f :: r => if c = sep then [] :: f :: r else (c :: f) :: r) ≠ []
      rcases h : splitOnChar sep rest with _ | ⟨f, r⟩
      · simp
      · by_cases hc : c = sep <;> simp [hc]

lemma splitOnChar_single {sep : Char} {a : List Char} (h : sep ∉ a) :
    splitOnChar sep a = [a] := by
  induction a with
  | nil => rfl
  | cons c rest ih =>
      have hc : ¬ c = sep := fun he => h (he ▸ List.mem_cons_self c rest)
      have hrest : sep ∉ rest := fun he => h (List.mem_cons_of_mem c he)
      show (match splitOnChar sep rest with
            | [] => [[]]
            | f :: r => if c = sep then [] :: f :: r else (c :: f) :: r) = [c :: rest]
      rw [ih hrest]
      simp [hc]

lemma splitOnChar_append {sep : Char} {a : List Char} (h : sep ∉ a) (r : List Char) :
    splitOnChar sep (a ++ sep :: r) = a :: splitOnChar sep r := by
  induction a with
  | nil =>
      show (match splitOnChar sep r with
            | [] => [[]]
            | f :: rr => if sep = sep then [] :: f :: rr else (sep :: f) :: rr) =
        [] :: splitOnChar sep r
      rcases hh : splitOnChar sep r with _ | ⟨f, rr⟩
      · exact absurd hh (splitOnChar_ne_nil sep r)
      · simp
  | cons c rest ih =>
      have hc : ¬ c = sep := fun he => h (he ▸ List.mem_cons_self c rest)
      have hrest : sep ∉ rest := fun he => h (List.mem_cons_of_mem c he)
      show (match splitOnChar sep (rest ++ sep :: r) with
            | [] => [[]]
            | f :: rr => if c = sep then [] :: f :: rr else (c :: f) :: rr) =
        (c :: rest) :: splitOnChar sep r
      rw [ih hrest]
      simp [hc]

/-! ### Title escaping -/

lemma escTitle_pipe_free (t : List Char) : '|' ∉ escTitle t := by
  intro h
  rw [escTitle, List.mem_map] at h
  obtain ⟨c, _, hc⟩ := h
  by_cases hp : c = '|' <;> simp [hp] at hc

lemma unescTitle_escTitle {t : List Char} (h : '∣' ∉ t) :
    unescTitle (escTitle t) = t := by
  induction t with
  | nil => rfl
  | cons c rest ih =>
      have hc : ¬ c = '∣' := fun he => h (he ▸ List.mem_cons_self c rest)
      have hrest : '∣' ∉ rest := fun he => h (List.mem_cons_of_mem c he)
      by_cases hp : c = '|'
      · subst hp
        simpa [escTitle, unescTitle] using ih hrest
      · simpa [escTitle, unescTitle, hp, hc] using ih hrest

/-! ### Field-side conditions of the amended round trip -/

lemma pipeFree_not_mem {l : List Char} (h : pipeFree l = true) : '|' ∉ l := by
  intro hm
  rw [pipeFree, List.all_eq_true] at h
  simpa using h '|' hm

lemma placeholderFree_not_mem {t : List Char} (h : placeholderFree t = true) :
    '∣' ∉ t := by
  intro hm
  rw [placeholderFree, List.all_eq_true] at h
  simpa using h '∣' hm

lemma split_to_cache_line (s : Story)
    (h4 : pipeFree s.id = true)
    (h5 : optFieldOk s.url = true)
    (h6 : optFieldOk s.author = true) :
    splitOnChar '|' s.to_cache_line =
      [natToChars s.rank, s.id, escTitle s.title, s.url.getD [],
       (s.points.map natToChars).getD [], s.author.getD [],
       (s.comments.map natToChars).getD []] := by
  have pf0 : '|' ∉ natToChars s.rank := natToChars_pipe_free _
  have pf1 : '|' ∉ s.id := pipeFree_not_mem h4
  have pf2 : '|' ∉ escTitle s.title := escTitle_pipe_free s.title
  have pf3 : '|' ∉ s.url.getD [] := by
    rcases hu : s.url with _ | u
    · simp
    · rw [hu] at h5
      simp only [optFieldOk, Bool.and_eq_true] at h5
      simpa using pipeFree_not_mem h5.1
  have pf6a : '|' ∉ s.author.getD [] := by
    rcases ha : s.author with _ | a
    · simp
    · rw [ha] at h6
      simp only [optFieldOk, Bool.and_eq_true] at h6
      simpa using pipeFree_not_mem h6.1
  have pf4 : '|' ∉ (s.points.map natToChars).getD [] := by
    rcases s.points with _ | p
    · simp
    · simpa using natToChars_pipe_free p
  have pf5 : '|' ∉ (s.comments.map natToChars).getD [] := by
    rcases s.comments with _ | c
    · simp
    · simpa using natToChars_pipe_free c
  unfold Story.to_cache_line
  rw [splitOnChar_append pf0, splitOnChar_append pf1, splitOnChar_append pf2,
      splitOnChar_append pf3, splitOnChar_append pf4, splitOnChar_append pf6a,
      splitOnChar_single pf5]

/-- Claim C2 amended: encode then decode is the identity on every Story
whose rank, points and comment count fit in 64 bits, whose id, url and
author contain no literal delimiter, whose url and author are not the
empty string when present, whose title contains no placeholder character,
and whose age is already none; titles containing the delimiter are covered
by the escaping. The original claim, quantified over every Story, fails
because the age field is never persisted (see the counterexample), and
because only the title is delimiter-escaped (claim C10). -/
theorem story_roundtrip_amended (s : Story)
    (h1 : s.rank < 2 ^ 64)
    (h2 : s.points.getD 0 < 2 ^ 64)
    (h3 : s.comments.getD 0 < 2 ^ 64)
    (h4 : pipeFree s.id = true)
    (h5 : optFieldOk s.url = true)
    (h6 : optFieldOk s.author = true)
    (h7 : placeholderFree s.title = true)
    (h8 : s.age = none) :
    Story.from_cache_line (Story.to_cache_line s) = some s := by
  rw [Story.from_cache_line, split_to_cache_line s h4 h5 h6, decodeParts,
      parseUsize_natToChars h1]
  obtain ⟨rank, id, title, url, points, author, comments, age⟩ := s
  simp only at h2 h3 h5 h6 h7 h8 ⊢
  subst h8
  have hurl : (if url.getD [] = [] then none else some (url.getD [])) = url := by
    rcases url with _ | u
    · simp
    · simp only [optFieldOk, Bool.and_eq_true, decide_eq_true_eq] at h5
      simp [h5.2]
  have hauthor : (if author.getD [] = [] then none else some (author.getD [])) = author := by
    rcases author with _ | a
    · simp
    · simp only [optFieldOk, Bool.and_eq_true, decide_eq_true_eq] at h6
      simp [h6.2]
  have hpoints : parseUsize ((points.map natToChars).getD []) = points := by
    rcases points with _ | p
    · simpa using parseUsize_nil
    · simp only [Option.getD_some] at h2
      simpa using parseUsize_natToChars h2
  have hcomments : parseUsize ((comments.map natToChars).getD []) = comments := by
    rcases comments with _ | c
    · simpa using parseUsize_nil
    · simp only [Option.getD_some] at h3
      simpa using parseUsize_natToChars h3
  simp [unescTitle_escTitle (placeholderFree_not_mem h7), hurl, hauthor,
        hpoints, hcomments]

/-- Claim C2 counterexample: the round trip is not the identity on every
Story; a Story whose age is present comes back with age erased, because
Story::to_cache_line never writes the age field and Story::from_cache_line
always sets it to none. All other fields, including the title containing
the delimiter, survive. -/
theorem story_roundtrip_counterexample :
    Story.from_cache_line (Story.to_cache_line ageStory) ≠ some ageStory ∧
    Story.from_cache_line (Story.to_cache_line ageStory) =
      some ⟨3, chars "9001", chars "Rust | Lean",
            some (chars "https://example.com/a"), some 42,
            some (chars "alice"), some 7, none⟩ := by
  constructor
  · decide
  · decide

/-- Claim C2 witness: the amended round trip applied to a concrete Story
whose title contains the delimiter character. -/
theorem story_roundtrip_amended_witness :
    Story.from_cache_line (Story.to_cache_line pipeTitleStory) =
      some pipeTitleStory :=
  story_roundtrip_amended pipeTitleStory (by decide) (by decide) (by decide)
    (by decide) (by decide) (by decide) (by decide) rfl

/-! ### Decode condition and cache load -/

lemma decodeParts_isSome_iff (parts : List (List Char)) :
    (decodeParts parts).isSome = true ↔
      parts.length = 7 ∧ (parseUsize (parts.headD [])).isSome = true := by
  rcases parts with _ | ⟨p0, _ | ⟨p1, _ | ⟨p2, _ | ⟨p3, _ | ⟨p4, _ | ⟨p5, _ | ⟨p6, _ | ⟨p7, rest⟩⟩⟩⟩⟩⟩⟩⟩
  · simp [decodeParts]
  · simp [decodeParts]
  · simp [decodeParts]
  · simp [decodeParts]
  · simp [decodeParts]
  · simp [decodeParts]
  · simp [decodeParts]
  · rcases hp : parseUsize p0 with _ | rank <;> simp [decodeParts, hp]
  · simp [decodeParts]

/-- Claim C6 corrected theorem: a body line decodes exactly when it splits
into 7 fields AND its first field parses as a 64-bit unsigned integer
(field count is not the sole per-line check: the rank parse is also
required, while the other numeric fields tolerate parse failure); and,
when the TTL check passes, the load fails with the No-stories error
exactly when the set of decodable body lines is empty. -/
theorem decode_drop_condition :
    (∀ line, (Story.from_cache_line line).isSome = true ↔
        ((splitOnChar '|' line).length = 7 ∧
         (parseUsize ((splitOnChar '|' line).headD [])).isSome = true)) ∧
    (∀ tsLine rest now, cacheExpired tsLine now = false →
        (loadCachedStories (tsLine :: rest) now = .error .noStories ↔
         rest.filterMap Story.from_cache_line = [])) := by
  constructor
  · intro line
    exact decodeParts_isSome_iff _
  · intro tsLine rest now hexp
    by_cases hs : rest.filterMap Story.from_cache_line = [] <;>
      simp [loadCachedStories, hexp, hs]

/-- Claim C6 counterexample: this line splits into exactly 7 fields, yet
it is dropped, because its first field does not parse as a rank. -/
theorem decode_field_count_counterexample :
    (splitOnChar '|' (chars "x|1|t||||")).length = 7 ∧
    Story.from_cache_line (chars "x|1|t||||") = none := by
  constructor
  · decide
  · decide

/-- Claim C6 witness: a fresh cache whose single body line is undecodable
loads as the No-stories error. -/
theorem decode_drop_condition_witness :
    loadCachedStories [chars "0", chars "junk"] 0 = .error .noStories :=
  (decode_drop_condition.2 (chars "0") [chars "junk"] 0 (by decide)).mpr
    (by decide)

/-- Claim C3: for a well-formed timestamp not in the future, the load
reports Cache expired exactly when the age exceeds 300 seconds; at ages
299, 300 and 301 this is not-expired, not-expired, expired. -/
theorem cache_ttl_boundary (t now : Nat) (rest : List (List Char))
    (ht : t < 2 ^ 64) (hnow : now < 2 ^ 64) (hle : t ≤ now) :
    loadCachedStories (natToChars t :: rest) now = .error .expired ↔
      CACHE_TTL_SECONDS < now - t := by
  have hexp : cacheExpired (natToChars t) now =
      decide (CACHE_TTL_SECONDS < now - t) := by
    have hw : wsub64 now t = now - t := by
      unfold wsub64
      have h2 : now + 2 ^ 64 - t = 2 ^ 64 + (now - t) := by omega
      rw [h2, Nat.add_mod_left]
      exact Nat.mod_eq_of_lt (by omega)
    simp only [cacheExpired, parseUsize_natToChars ht, hw]
  by_cases hlt : CACHE_TTL_SECONDS < now - t
  · simp [loadCachedStories, hexp, hlt]
  · rcases hs : rest.filterMap Story.from_cache_line with _ | ⟨a, l⟩ <;>
      simp [loadCachedStories, hexp, hlt, hs]

/-- Claim C3 witness: with timestamp 1000, the load is expired at time
1301 and not expired at times 1300 and 1299. -/
theorem cache_ttl_boundary_witness :
    loadCachedStories [natToChars 1000] 1301 = .error .expired ∧
    ¬ loadCachedStories [natToChars 1000] 1300 = .error .expired ∧
    ¬ loadCachedStories [natToChars 1000] 1299 = .error .expired :=
  ⟨(cache_ttl_boundary 1000 1301 [] (by decide) (by decide) (by decide)).mpr
      (by decide),
   fun h => absurd
     ((cache_ttl_boundary 1000 1300 [] (by decide) (by decide) (by decide)).mp h)
     (by decide),
   fun h => absurd
     ((cache_ttl_boundary 1000 1299 [] (by decide) (by decide) (by decide)).mp h)
     (by decide)⟩

/-- Claim C9: the TTL subtraction has no underflow guard, so a well-formed
timestamp in the future by at least one and at most 2 ^ 64 - 301 seconds
makes the wrapped u64 difference exceed the TTL, and the load rejects the
fresh record as Cache expired. This is the release-mode wrapping
semantics of the u64 subtraction; a debug build would abort on the
underflow instead. -/
theorem future_timestamp_expired (t now : Nat) (rest : List (List Char))
    (ht : t < 2 ^ 64) (hlt : now < t) (hgap : t - now ≤ 2 ^ 64 - 301) :
    loadCachedStories (natToChars t :: rest) now = .error .expired ∧
    CACHE_TTL_SECONDS < wsub64 now t := by
  have hpow : (2 : Nat) ^ 64 = 18446744073709551616 := by norm_num
  have hgt : CACHE_TTL_SECONDS < wsub64 now t := by
    have hw : wsub64 now t = 2 ^ 64 - (t - now) := by
      unfold wsub64
      have h2 : now + 2 ^ 64 - t = 2 ^ 64 - (t - now) := by omega
      rw [h2]
      exact Nat.mod_eq_of_lt (by omega)
    rw [hw, CACHE_TTL_SECONDS]
    omega
  refine ⟨?_, hgt⟩
  have hexp : cacheExpired (natToChars t) now = true := by
    simp only [cacheExpired, parseUsize_natToChars ht]
    exact decide_eq_true hgt
  simp [loadCachedStories, hexp]

/-- Claim C9 witness: a cache stamped 400 seconds in the future is
rejected as expired. -/
theorem future_timestamp_expired_witness :
    loadCachedStories [natToChars 1400] 1000 = .error .expired :=
  (future_timestamp_expired 1400 1000 [] (by decide) (by decide)
    (by decide)).1

/-- Claim C10: only the title is delimiter-escaped on save, so a Story
whose url contains the delimiter encodes into a line of 8 fields, the
decode returns none, and the story is silently lost across a
save-then-load round trip (the load of a fresh cache holding only this
story reports No stories). -/
theorem url_delimiter_story_lost :
    (splitOnChar '|' pipeUrlStory.to_cache_line).length = 8 ∧
    Story.from_cache_line pipeUrlStory.to_cache_line = none ∧
    loadCachedStories (saveLines 0 [pipeUrlStory]) 0 = .error .noStories := by
  refine ⟨by decide, by decide, by decide⟩

/-! ### Comment truncation -/

lemma displayComments_eq {α : Type} (total : Nat) :
    ∀ (rows : List α) (idx : Nat), idx ≤ 10 →
      displayComments total idx rows =
        (rows.take (10 - idx),
         if 10 < idx + rows.length then some (total - 10) else none) := by
  intro rows
  induction rows with
  | nil =>
      intro idx h
      rw [show displayComments total idx ([] : List α) = ([], none) from rfl,
          List.take_nil, List.length_nil, Nat.add_zero, if_neg (by omega)]
  | cons c rest ih =>
      intro idx h
      by_cases h10 : 10 ≤ idx
      · have hidx : idx = 10 := le_antisymm h h10
        subst hidx
        rw [displayComments, if_pos (le_refl 10), List.length_cons,
            Nat.sub_self, List.take_zero, if_pos (by omega)]
      · rw [displayComments, if_neg h10, ih (idx + 1) (by omega)]
        have ht : (c :: rest).take (10 - idx) = c :: rest.take (10 - (idx + 1)) := by
          rw [show 10 - idx = (10 - (idx + 1)) + 1 from by omega, List.take_succ_cons]
        rw [List.length_cons, ht,
            show idx + 1 + rest.length = idx + (rest.length + 1) from by omega]

/-- Claim C5: item extraction materializes exactly the first 10 comment
rows in document order, and when the total exceeds 10 the materialized
count is exactly 10 and the reported remainder is the total minus 10. -/
theorem comment_truncation {α : Type} (rows : List α) :
    (fetchItemComments rows).1 = rows.take 10 ∧
    (10 < rows.length →
      (fetchItemComments rows).1.length = 10 ∧
      (fetchItemComments rows).2 = some (rows.length - 10)) := by
  rcases rows with _ | ⟨c, rest⟩
  · constructor
    · rfl
    · intro h
      simp at h
  · rw [fetchItemComments, if_neg (by simp),
        displayComments_eq _ _ 0 (by omega)]
    simp only [Nat.sub_zero, Nat.zero_add]
    refine ⟨trivial, fun h => ⟨?_, ?_⟩⟩
    · simp only [List.length_take]
      omega
    · rw [if_pos h]

/-- Claim C5 witness: a detail page with 13 comment rows materializes 10
and reports a remainder of 3. -/
theorem comment_truncation_witness :
    (fetchItemComments (List.range 13)).1.length = 10 ∧
    (fetchItemComments (List.range 13)).2 = some 3 := by
  simpa using (comment_truncation (List.range 13)).2 (by decide)

/-! ### Listing extraction -/

/-- Claim C7: when a story row carries no rank label, the emitted rank is
the synthesized (page - 1) * 30 + position with 1-based position, for any
page at least 1 whose synthesized value fits in 64 bits. -/
theorem rank_synthesis (page idx : Nat) (row : StoryRow)
    (st : Option SubtextRow) (s : Story)
    (hlabel : row.rankLabel = none)
    (hout : extractRow page idx row st = some s)
    (hpage : 1 ≤ page) (hpage64 : page < 2 ^ 64)
    (hbound : (page - 1) * 30 + idx + 1 < 2 ^ 64) :
    s.rank = (page - 1) * 30 + (idx + 1) := by
  have hsynth : synthRank page idx = (page - 1) * 30 + (idx + 1) := by
    have hw : wsub64 page 1 = page - 1 := by
      unfold wsub64
      have h2 : page + 2 ^ 64 - 1 = 2 ^ 64 + (page - 1) := by omega
      rw [h2, Nat.add_mod_left]
      exact Nat.mod_eq_of_lt (by omega)
    unfold synthRank ITEMS_PER_PAGE
    rw [hw, Nat.mod_eq_of_lt hbound]
    omega
  simp only [extractRow, hlabel, Option.none_bind, Option.getD_none] at hout
  split at hout
  · exact absurd hout (by simp)
  · rw [Option.some.injEq] at hout
    rw [← hout]
    exact hsynth

/-- Claim C7 witness: page 2, 1-based position 5, no rank label, gives
rank 35. -/
theorem rank_synthesis_witness : rankStory.rank = (2 - 1) * 30 + (4 + 1) :=
  rank_synthesis 2 4 sampleRow none rankStory rfl (by decide) (by decide)
    (by decide) (by decide)

lemma extractRow_title_ne_nil {page idx : Nat} {row : StoryRow}
    {st : Option SubtextRow} {s : Story}
    (h : extractRow page idx row st = some s) : s.title ≠ [] := by
  simp only [extractRow] at h
  split at h
  case isTrue hc => exact absurd h (by simp)
  case isFalse hc =>
    rw [Option.some.injEq] at h
    rw [← h]
    simpa using hc

lemma extractStoriesAux_title {page : Nat} {subtexts : List SubtextRow} :
    ∀ (rows : List StoryRow) (idx : Nat) (s : Story),
      s ∈ extractStoriesAux page subtexts idx rows → s.title ≠ [] := by
  intro rows
  induction rows with
  | nil =>
      intro idx s hs
      simp [extractStoriesAux] at hs
  | cons row rest ih =>
      intro idx s hs
      rw [extractStoriesAux] at hs
      rcases he : extractRow page idx row (subtexts.get? idx) with _ | s0
      · rw [he] at hs
        exact ih _ _ hs
      · rw [he] at hs
        rcases List.mem_cons.mp hs with rfl | hs2
        · exact extractRow_title_ne_nil he
        · exact ih _ _ hs2

/-- Claim C8: every Story emitted by the listing extraction has a
non-empty title; rows with an empty (or missing) title are skipped. -/
theorem nonempty_title_invariant (storyRows : List StoryRow)
    (subtexts : List SubtextRow) (page : Nat) (out : List Story)
    (h : fetchStoriesExtract storyRows subtexts page = .ok out) :
    ∀ s ∈ out, s.title ≠ [] := by
  intro s hs
  simp only [fetchStoriesExtract] at h
  split at h
  · exact absurd h (by simp)
  · rw [Except.ok.injEq] at h
    rw [← h] at hs
    exact extractStoriesAux_title _ _ _ hs

/-- Claim C8 witness: a listing with an empty-titled row and a titled row
emits only the titled Story, whose title is non-empty. -/
theorem nonempty_title_invariant_witness : titledStory.title ≠ [] :=
  nonempty_title_invariant [emptyTitleRow, sampleRow] [] 1 [titledStory]
    (by decide) titledStory (by decide)

/-! ### Multi-page fetch -/

lemma collectResults_isOk_false {ε α : Type} :
    ∀ (l : List (Except ε α)), (∃ x ∈ l, isOkE x = false) →
      isOkE (collectResults l) = false := by
  intro l
  induction l with
  | nil =>
      rintro ⟨x, hx, _⟩
      simp at hx
  | cons e rest ih =>
      rintro ⟨x, hx, hxf⟩
      rcases e with e | a
      · simp [collectResults, isOkE]
      · rcases List.mem_cons.mp hx with rfl | hxr
        · exact absurd hxf (by simp [isOkE])
        · have hr := ih ⟨x, hxr, hxf⟩
          rw [collectResults]
          rcases hc : collectResults rest with e2 | l2
          · simp [isOkE]
          · rw [hc] at hr
            exact absurd hr (by simp [isOkE])

lemma collectResults_ok {ε α : Type} :
    ∀ (l : List (Except ε α)) (out : List α), collectResults l = .ok out →
      out.length = l.length ∧
      ∀ (i : Nat) (h1 : i < l.length) (h2 : i < out.length),
        l[i] = Except.ok out[i] := by
  intro l
  induction l with
  | nil =>
      intro out h
      rw [collectResults, Except.ok.injEq] at h
      subst h
      exact ⟨rfl, fun i h1 _ => absurd h1 (by simp)⟩
  | cons e rest ih =>
      intro out h
      rcases e with e | a
      · exact absurd h (by simp [collectResults])
      · rw [collectResults] at h
        rcases hc : collectResults rest with e2 | l2
        · rw [hc] at h
          exact absurd h (by simp)
        · rw [hc, Except.ok.injEq] at h
          subst h
          obtain ⟨hl, hi⟩ := ih l2 hc
          refine ⟨by simp [hl], fun i h1 h2 => ?_⟩
          cases i with
          | zero => simp
          | succ j =>
              simp only [List.getElem_cons_succ]
              exact hi j (by simpa using h1) (by simpa using h2)

/-- Claim C4: the multi-page fetch is fail-fast and order-preserving: if
any requested page fails, the aggregate is a failure (no page results
surface), and on success the output holds, position by position, the
successful result of the page requested at that position. join_all
returns per-page results in request order regardless of completion order,
which the embedding reflects by indexing results by request position. -/
theorem fetch_many_fail_fast_ordered {ε : Type}
    (fetch : Nat → Except ε (List Story)) (pages : List Nat) :
    ((∃ p ∈ pages, ∃ e, fetch p = .error e) →
      isOkE (fetchMultiplePages fetch pages) = false) ∧
    (∀ out, fetchMultiplePages fetch pages = .ok out →
      out.length = pages.length ∧
      ∀ (i : Nat) (h1 : i < pages.length) (h2 : i < out.length),
        fetch pages[i] = .ok out[i]) := by
  constructor
  · rintro ⟨p, hp, e, he⟩
    apply collectResults_isOk_false
    refine ⟨fetch p, List.mem_map_of_mem fetch hp, ?_⟩
    rw [he]
    rfl
  · intro out h
    obtain ⟨hl, hi⟩ := collectResults_ok (pages.map fetch) out h
    refine ⟨by simpa using hl, fun i h1 h2 => ?_⟩
    have hg := hi i (by simpa using h1) h2
    rwa [List.getElem_map] at hg

/-- Claim C4 witness: fetching pages 1, 2, 3 where page 2 fails yields a
failure, so no page results surface. -/
theorem fetch_many_fail_fast_ordered_witness :
    isOkE (fetchMultiplePages failingFetch [1, 2, 3]) = false :=
  (fetch_many_fail_fast_ordered failingFetch [1, 2, 3]).1
    ⟨2, by decide, chars "boom", by decide⟩

/-! ### Word splitting lemmas -/

lemma splitWSAux_space (b : List Char) :
    ∀ (a acc : List Char),
      splitWSAux (a ++ ' ' :: b) acc = splitWSAux a acc ++ splitWS b := by
  intro a
  induction a with
  | nil =>
      intro acc
      rw [List.nil_append, splitWSAux, splitWSAux]
      by_cases ha : acc = []
      · simp [ha, splitWS, show isWsChar ' ' = true from rfl]
      · simp [ha, splitWS, show isWsChar ' ' = true from rfl]
  | cons c a ih =>
      intro acc
      rw [List.cons_append, splitWSAux, splitWSAux]
      by_cases hw : isWsChar c = true
      · rw [if_pos hw, if_pos hw]
        by_cases ha : acc = []
        · rw [if_pos ha, if_pos ha, ih]
        · rw [if_neg ha, if_neg ha, ih, List.cons_append]
      · rw [if_neg hw, if_neg hw, ih]

lemma splitWS_append_space (a b : List Char) :
    splitWS (a ++ ' ' :: b) = splitWS a ++ splitWS b :=
  splitWSAux_space b a []

lemma splitWSAux_word :
    ∀ (w acc : List Char), (∀ c ∈ w, isWsChar c = false) →
      (acc ≠ [] ∨ w ≠ []) → splitWSAux w acc = [acc.reverse ++ w] := by
  intro w
  induction w with
  | nil =>
      intro acc _ hne
      rcases hne with ha | hw
      · rw [splitWSAux, if_neg ha, List.append_nil]
      · exact absurd rfl hw
  | cons c w ih =>
      intro acc hf _
      have hc : isWsChar c = false := hf c (List.mem_cons_self _ _)
      rw [splitWSAux, if_neg (by simp [hc]),
          ih (c :: acc) (fun x hx => hf x (List.mem_cons_of_mem _ hx))
            (Or.inl (by simp))]
      simp

lemma splitWS_word {w : List Char} (hf : ∀ c ∈ w, isWsChar c = false)
    (hne : w ≠ []) : splitWS w = [w] := by
  rw [splitWS, splitWSAux_word w [] hf (Or.inr hne)]
  simp

lemma splitWSAux_words_ok :
    ∀ (l acc : List Char), (∀ c ∈ acc, isWsChar c = false) →
      ∀ w ∈ splitWSAux l acc, w ≠ [] ∧ ∀ c ∈ w, isWsChar c = false := by
  intro l
  induction l with
  | nil =>
      intro acc hacc w hw
      rw [splitWSAux] at hw
      by_cases ha : acc = []
      · rw [if_pos ha] at hw
        simp at hw
      · rw [if_neg ha] at hw
        simp only [List.mem_singleton] at hw
        subst hw
        exact ⟨by simpa using ha, fun c hc => hacc c (List.mem_reverse.mp hc)⟩
  | cons c rest ih =>
      intro acc hacc w hw
      rw [splitWSAux] at hw
      by_cases hws : isWsChar c = true
      · rw [if_pos hws] at hw
        by_cases ha : acc = []
        · rw [if_pos ha] at hw
          exact ih [] (by simp) w hw
        · rw [if_neg ha] at hw
          rcases List.mem_cons.mp hw with rfl | hw2
          · exact ⟨by simpa using ha, fun x hx => hacc x (List.mem_reverse.mp hx)⟩
          · exact ih [] (by simp) w hw2
      · rw [if_neg hws] at hw
        refine ih (c :: acc) ?_ w hw
        intro x hx
        rcases List.mem_cons.mp hx with rfl | hx2
        · simpa using hws
        · exact hacc x hx2

lemma splitWS_words_ok (l : List Char) :
    ∀ w ∈ splitWS l, w ≠ [] ∧ ∀ c ∈ w, isWsChar c = false :=
  splitWSAux_words_ok l [] (by simp)

lemma wordsOfLines_append (a b : List (List Char)) :
    wordsOfLines (a ++ b) = wordsOfLines a ++ wordsOfLines b := by
  induction a with
  | nil => rfl
  | cons x a ih =>
      show splitWS x ++ wordsOfLines (a ++ b) =
        (splitWS x ++ wordsOfLines a) ++ wordsOfLines b
      rw [ih, List.append_assoc]

/-! ### The wrap invariant -/

lemma splitWS_nil : splitWS [] = [] := rfl

lemma wrapStep_inv (width : Nat) (W : List (List Char))
    (lines : List (List Char)) (cur w : List Char)
    (hw1 : w ≠ []) (hw2 : ∀ c ∈ w, isWsChar c = false) (hw3 : w ∈ W)
    (hl : ∀ l ∈ lines, l.length ≤ width ∨ l ∈ W)
    (hc : cur = [] ∨ cur.length ≤ width ∨ cur ∈ W) :
    (∀ l ∈ (wrapStep width (lines, cur) w).1, l.length ≤ width ∨ l ∈ W) ∧
    ((wrapStep width (lines, cur) w).2 = [] ∨
      (wrapStep width (lines, cur) w).2.length ≤ width ∨
      (wrapStep width (lines, cur) w).2 ∈ W) ∧
    wordsOfLines (wrapStep width (lines, cur) w).1 ++
        splitWS (wrapStep width (lines, cur) w).2 =
      wordsOfLines lines ++ splitWS cur ++ [w] := by
  have hsw : splitWS w = [w] := splitWS_word hw2 hw1
  by_cases hover : width < cur.length + w.length + 1
  · by_cases hcur : cur = []
    · subst hcur
      have hres : wrapStep width (lines, []) w = (lines, w) := by
        simp [wrapStep, hover]
      rw [hres]
      refine ⟨hl, Or.inr (Or.inr hw3), ?_⟩
      simp [hsw, splitWS_nil]
    · have hres : wrapStep width (lines, cur) w = (lines ++ [cur], w) := by
        simp [wrapStep, hover, hcur]
      rw [hres]
      constructor
      · intro l hlm
        rcases List.mem_append.mp hlm with h | h
        · exact hl l h
        · rcases hc with h0 | h0
          · exact absurd h0 hcur
          · have he : l = cur := by simpa using h
            subst he
            exact h0
      · refine ⟨Or.inr (Or.inr hw3), ?_⟩
        rw [wordsOfLines_append, hsw]
        show (wordsOfLines lines ++ (splitWS cur ++ [])) ++ [w] =
          wordsOfLines lines ++ splitWS cur ++ [w]
        simp
  · by_cases hcur : cur = []
    · subst hcur
      have hres : wrapStep width (lines, []) w = (lines, w) := by
        simp [wrapStep, hover]
      rw [hres]
      refine ⟨hl, ?_, ?_⟩
      · refine Or.inr (Or.inl ?_)
        show w.length ≤ width
        simp only [List.length_nil] at hover
        omega
      · simp [hsw, splitWS_nil]
    · have hres : wrapStep width (lines, cur) w = (lines, cur ++ ' ' :: w) := by
        simp [wrapStep, hover, hcur]
      rw [hres]
      refine ⟨hl, ?_, ?_⟩
      · refine Or.inr (Or.inl ?_)
        show (cur ++ ' ' :: w).length ≤ width
        simp only [List.length_append, List.length_cons]
        omega
      · rw [splitWS_append_space, hsw, List.append_assoc]

lemma wrap_fold (width : Nat) (W : List (List Char)) :
    ∀ (ws : List (List Char)) (lines : List (List Char)) (cur : List Char),
      (∀ w ∈ ws, w ≠ [] ∧ (∀ c ∈ w, isWsChar c = false) ∧ w ∈ W) →
      (∀ l ∈ lines, l.length ≤ width ∨ l ∈ W) →
      (cur = [] ∨ cur.length ≤ width ∨ cur ∈ W) →
      (∀ l ∈ (ws.foldl (wrapStep width) (lines, cur)).1,
        l.length ≤ width ∨ l ∈ W) ∧
      ((ws.foldl (wrapStep width) (lines, cur)).2 = [] ∨
        (ws.foldl (wrapStep width) (lines, cur)).2.length ≤ width ∨
        (ws.foldl (wrapStep width) (lines, cur)).2 ∈ W) ∧
      wordsOfLines (ws.foldl (wrapStep width) (lines, cur)).1 ++
          splitWS (ws.foldl (wrapStep width) (lines, cur)).2 =
        wordsOfLines lines ++ splitWS cur ++ ws := by
  intro ws
  induction ws with
  | nil =>
      intro lines cur _ hl hc
      exact ⟨hl, hc, by simp⟩
  | cons w ws ih =>
      intro lines cur hws hl hc
      obtain ⟨hw1, hw2, hw3⟩ := hws w (List.mem_cons_self _ _)
      obtain ⟨h1, h2, h3⟩ := wrapStep_inv width W lines cur w hw1 hw2 hw3 hl hc
      rw [List.foldl_cons]
      obtain ⟨hr1, hr2, hr3⟩ :=
        ih (wrapStep width (lines, cur) w).1 (wrapStep width (lines, cur) w).2
          (fun x hx => hws x (List.mem_cons_of_mem _ hx)) h1 h2
      rw [Prod.mk.eta] at hr1 hr2 hr3
      refine ⟨hr1, hr2, ?_⟩
      rw [hr3, h3, List.append_assoc, List.append_assoc]
      simp

/-- Claim C1 corrected theorem: wrapping the text aaaa bbbb cccc to width
9 yields the two lines aaaa bbbb and cccc (the first two words, joined by
one space, fill the width exactly); and for every text and positive
width, the wrap never splits a word (the words of the output lines,
in order, are exactly the words of the input) and every output line
either fits the width or is a single over-long word of the input,
occupying its own line unmodified. -/
theorem wrap_text_spec :
    wrapText (chars "aaaa bbbb cccc") 9 = [chars "aaaa bbbb", chars "cccc"] ∧
    ∀ (text : List Char) (width : Nat), 0 < width →
      wordsOfLines (wrapText text width) = splitWS text ∧
      ∀ l ∈ wrapText text width, l.length ≤ width ∨ l ∈ splitWS text := by
  constructor
  · decide
  · intro text width _
    obtain ⟨h1, h2, h3⟩ := wrap_fold width (splitWS text) (splitWS text) [] []
      (fun w hw =>
        ⟨(splitWS_words_ok text w hw).1, (splitWS_words_ok text w hw).2, hw⟩)
      (by simp) (Or.inl rfl)
    simp only [wrapText]
    set r := (splitWS text).foldl (wrapStep width) ([], []) with hr
    by_cases h0 : r.2 = []
    · rw [if_pos h0]
      refine ⟨?_, fun l hl => h1 l hl⟩
      rw [h0] at h3
      simpa [splitWS_nil] using h3
    · rw [if_neg h0]
      constructor
      · rw [wordsOfLines_append]
        have hone : wordsOfLines [r.2] = splitWS r.2 ++ [] := rfl
        rw [hone, List.append_nil]
        simpa [splitWS_nil] using h3
      · intro l hl
        rcases List.mem_append.mp hl with hl1 | hl2
        · exact h1 l hl1
        · have he : l = r.2 := by simpa using hl2
          subst he
          rcases h2 with h | h | h
          · exact absurd h h0
          · exact Or.inl h
          · exact Or.inr h

/-- Claim C1 counterexample: wrapping aaaa bbbb cccc to width 9 does not
yield the three single-word lines the claim states; the first line is
aaaa bbbb, which fits the width exactly. -/
theorem wrap_text_example_counterexample :
    wrapText (chars "aaaa bbbb cccc") 9 ≠
      [chars "aaaa", chars "bbbb", chars "cccc"] := by
  decide

/-- Claim C1 witness: the no-word-splitting conclusion evaluated on the
spec example at width 9. -/
theorem wrap_text_spec_witness :
    wordsOfLines (wrapText (chars "aaaa bbbb cccc") 9) =
      splitWS (chars "aaaa bbbb cccc") :=
  (wrap_text_spec.2 (chars "aaaa bbbb cccc") 9 (by decide)).1
